import Mathlib

/-!
# RapidPay — Relationship & Chain Analysis Engine: verification development

Shallow embedding of the SATD (Self-Admitted Technical Debt) analysis engine of
the RapidPay repository (`Test/Experiments/Paper/experiment_code.py`, and the
tier bucketing of `docs/tmp/exp22.py`), together with theorems settling the
specification claims about it.

Conventions of the embedding:
* Python floats are modelled as rationals (`ℚ`); all arithmetic in the scored
  quantities is exact in the source (sums, products and divisions of small
  decimals), so this is faithful.
* `networkx.DiGraph` is modelled as insertion-ordered node and edge lists;
  `add_edge` on an existing ordered pair replaces that edge's attributes,
  exactly as assigning the attribute dict does in networkx.
* `nx.descendants` / `nx.ancestors` (sets of reachable nodes, excluding the
  start node) are modelled by an iterated one-step closure with sufficient
  fuel, and proved to coincide with the reflexive-transitive closure
  (`Reaches`) of the edge relation.
* `nx.all_simple_paths(G, s, t, cutoff)` is modelled by a fuelled DFS that is
  proved to enumerate exactly the simple paths from `s` to `t` with at most
  `cutoff` edges.
-/

namespace RapidPay

/-- Case-insensitive-ready substring test: `strContains s sub` holds iff `sub`
occurs contiguously in `s` (Python's `sub in s`). -/
def strContains (s sub : String) : Bool :=
  decide (sub.toList <:+: s.toList)

/-- Components stored in `TechnicalDebt.sir_components`
(`experiment_code.py` lines 137-142 and 691-696). -/
structure SirComponents where
  severity : ℚ
  outDependencies : ℚ
  inDependencies : ℚ
  chainLengthFactor : ℚ
deriving DecidableEq, Repr

/-- A SATD instance (`class TechnicalDebt`, `experiment_code.py` lines 125-145).
`debt_type` is a plain string in the source (set by the detector), so it is a
`String` here; `sir_score`/`sir_components` start at the zero defaults of
`__init__`. -/
structure TechnicalDebt where
  id : String
  file : String
  line : ℕ
  content : String
  description : String
  debt_type : String
  created_commit : String
  created_date : String
  sir_score : ℚ
  sir_components : SirComponents
deriving DecidableEq, Repr

/-- A relationship between SATD instances (`class SatdRelationship`,
`experiment_code.py` lines 147-159). The chain annotation fields
(`chain_ids`, `in_chain`) and the free-text `description` are diagnostic only
and unused by every claim, so they are omitted. -/
structure SatdRelationship where
  source_id : String
  target_id : String
  types : List String
  strength : ℚ
deriving DecidableEq, Repr

/-- Attributes stored on a graph edge by `add_edge(..., types=..., strength=...)`. -/
structure EdgeData where
  types : List String
  strength : ℚ
deriving DecidableEq, Repr

/-- A `networkx.DiGraph` as used by the engine: insertion-ordered node list and
insertion-ordered `(source, target, attributes)` edge list with at most one
edge per ordered pair. -/
structure DiGraph where
  nodes : List String
  edges : List (String × String × EdgeData)
deriving DecidableEq, Repr

def DiGraph.empty : DiGraph := ⟨[], []⟩

/-- `graph.add_node(u)`: networkx ignores the call if the node exists. -/
def DiGraph.addNode (g : DiGraph) (u : String) : DiGraph :=
  if u ∈ g.nodes then g else { g with nodes := g.nodes ++ [u] }

/-- `graph.add_edge(u, v, **data)`: endpoints are added as nodes if missing;
if the ordered pair is already present its attribute dict is overwritten,
otherwise the edge is appended. -/
def DiGraph.add_edge (g : DiGraph) (u v : String) (d : EdgeData) : DiGraph :=
  let g' := (g.addNode u).addNode v
  if g'.edges.any (fun e => e.1 == u && e.2.1 == v) then
    { g' with edges := g'.edges.map (fun e => if e.1 == u && e.2.1 == v then (u, v, d) else e) }
  else
    { g' with edges := g'.edges ++ [(u, v, d)] }

/-- `v in graph[u]`: there is an edge from `u` to `v`. -/
def DiGraph.hasEdge (g : DiGraph) (u v : String) : Bool :=
  g.edges.any (fun e => e.1 == u && e.2.1 == v)

/-- The attribute dict of edge `(u, v)`, when present. -/
def DiGraph.edgeData (g : DiGraph) (u v : String) : Option EdgeData :=
  (g.edges.find? (fun e => e.1 == u && e.2.1 == v)).map (fun e => e.2.2)

/-- `graph.successors(u)` in adjacency (insertion) order. -/
def DiGraph.succs (g : DiGraph) (u : String) : List String :=
  (g.edges.filter (fun e => e.1 == u)).map (fun e => e.2.1)

/-- The graph with every edge flipped (used to compute `nx.ancestors`). -/
def DiGraph.reverse (g : DiGraph) : DiGraph :=
  ⟨g.nodes, g.edges.map (fun e => (e.2.1, e.1, e.2.2))⟩

/-! ## SIR scorer: intrinsic severity (`SirCalculator._calculate_intrinsic_severity`,
`experiment_code.py` lines 700-726) -/

/-- The `type_severity` dict literal of `_calculate_intrinsic_severity`,
in source order; `dict.get(key, 5.0)` is association-list lookup with
default `5`. -/
def type_severity : List (String × ℚ) :=
  [("Design", 8), ("Architecture", 9), ("Defect", 7), ("Test", 6),
   ("Implementation", 5), ("Requirement", 7), ("Documentation", 4), ("Other", 5)]

/-- `SirCalculator._calculate_intrinsic_severity(debt)`: base severity from
`type_severity`, keyword adjustment on the lowercased content, clamp to
`[1, 10]`. -/
def SirCalculator.calculate_intrinsic_severity (debt : TechnicalDebt) : ℚ :=
  let severity := (type_severity.lookup debt.debt_type).getD 5
  let content := debt.content.toLower
  let severity :=
    if ["critical", "blocker", "urgent", "security"].any (fun w => strContains content w) then
      severity + 2
    else if ["major", "important"].any (fun w => strContains content w) then
      severity + 1
    else if ["minor", "cosmetic", "trivial"].any (fun w => strContains content w) then
      severity - 2
    else severity
  max 1 (min 10 severity)

/-- Base severity table as the specification states it (claim C6):
Architecture = 9, Design = 8, Defect = 7, Requirement = 7, Test = 6,
Implementation = 5, Other = 5, Documentation = 4, unknown treated as Other = 5. -/
def severitySpecBase (debt_type : String) : ℚ :=
  if debt_type = "Architecture" then 9
  else if debt_type = "Design" then 8
  else if debt_type = "Defect" then 7
  else if debt_type = "Requirement" then 7
  else if debt_type = "Test" then 6
  else if debt_type = "Implementation" then 5
  else if debt_type = "Documentation" then 4
  else 5

/-- Severity exactly as claim C6 words it: the base value by `debt_type`,
adjusted by +2 / +1 / −2 on case-insensitive keyword containment, clamped
to `[1, 10]`. -/
def severitySpec (debt : TechnicalDebt) : ℚ :=
  let base := severitySpecBase debt.debt_type
  let content := debt.content.toLower
  let adjusted :=
    if ["critical", "blocker", "urgent", "security"].any (fun w => strContains content w) then
      base + 2
    else if ["major", "important"].any (fun w => strContains content w) then
      base + 1
    else if ["minor", "cosmetic", "trivial"].any (fun w => strContains content w) then
      base - 2
    else base
  max 1 (min 10 adjusted)

lemma lookup_type_severity (s : String) :
    ((type_severity.lookup s).getD 5) = severitySpecBase s := by
  by_cases h1 : s = "Design"; · subst h1; decide
  by_cases h2 : s = "Architecture"; · subst h2; decide
  by_cases h3 : s = "Defect"; · subst h3; decide
  by_cases h4 : s = "Test"; · subst h4; decide
  by_cases h5 : s = "Implementation"; · subst h5; decide
  by_cases h6 : s = "Requirement"; · subst h6; decide
  by_cases h7 : s = "Documentation"; · subst h7; decide
  by_cases h8 : s = "Other"; · subst h8; decide
  have e1 : (s == "Design") = false := beq_eq_false_iff_ne.mpr h1
  have e2 : (s == "Architecture") = false := beq_eq_false_iff_ne.mpr h2
  have e3 : (s == "Defect") = false := beq_eq_false_iff_ne.mpr h3
  have e4 : (s == "Test") = false := beq_eq_false_iff_ne.mpr h4
  have e5 : (s == "Implementation") = false := beq_eq_false_iff_ne.mpr h5
  have e6 : (s == "Requirement") = false := beq_eq_false_iff_ne.mpr h6
  have e7 : (s == "Documentation") = false := beq_eq_false_iff_ne.mpr h7
  have e8 : (s == "Other") = false := beq_eq_false_iff_ne.mpr h8
  simp [type_severity, List.lookup, e1, e2, e3, e4, e5, e6, e7, e8,
    severitySpecBase, h1, h2, h3, h4, h5, h6, h7, h8]

/-- A concrete Architecture-typed instance whose content contains "critical"
(Scenario C of the specification). -/
def archCriticalDebt : TechnicalDebt :=
  ⟨"satd_1", "core/engine.py", 10, "TODO critical coupling problem",
   "TODO critical coupling problem", "Architecture", "", "", 0, ⟨0, 0, 0, 0⟩⟩

/-- C6. For every SATD instance, its severity equals the base value of its
`debt_type` (Architecture 9, Design 8, Defect 7, Requirement 7, Test 6,
Implementation 5, Other 5, Documentation 4, unknown types treated as Other = 5),
adjusted +2 for critical/blocker/urgent/security content, else +1 for
major/important, else −2 for minor/cosmetic/trivial (case-insensitive), and
clamped to `[1, 10]`; in particular an Architecture instance whose content
contains "critical" has severity 10. -/
theorem severity_matches_spec :
    (∀ debt : TechnicalDebt,
      SirCalculator.calculate_intrinsic_severity debt = severitySpec debt)
    ∧ SirCalculator.calculate_intrinsic_severity archCriticalDebt = 10 := by
  constructor
  · intro debt
    simp only [SirCalculator.calculate_intrinsic_severity, severitySpec,
      lookup_type_severity]
  · with_unfolding_all decide

/-! ## Tier bucketing (`docs/tmp/exp22.py`, `generate_complete_dataset`
lines 263-269) -/

namespace Exp22

/-- The SIR rank bucket assignment of `generate_complete_dataset`:
`>= 0.7 → 'Top-5'`, `>= 0.4 → 'Mid-5'`, else `'Bottom-5'`. -/
def sir_bucket (sir_score : ℚ) : String :=
  if 7/10 ≤ sir_score then "Top-5"
  else if 4/10 ≤ sir_score then "Mid-5"
  else "Bottom-5"

end Exp22

/-- C9. The assigned tier is determined by fixed thresholds on the normalized
0-1 `sir_score`: a score ≥ 0.7 yields the Top tier, a score in `[0.4, 0.7)`
the Mid tier, and a score below 0.4 the Bottom tier; in particular 0.75, 0.45
and 0.1 yield Top, Mid and Bottom respectively. -/
theorem tier_thresholds :
    (∀ s : ℚ,
      (7/10 ≤ s → Exp22.sir_bucket s = "Top-5")
      ∧ (4/10 ≤ s → s < 7/10 → Exp22.sir_bucket s = "Mid-5")
      ∧ (s < 4/10 → Exp22.sir_bucket s = "Bottom-5"))
    ∧ Exp22.sir_bucket (75/100) = "Top-5"
    ∧ Exp22.sir_bucket (45/100) = "Mid-5"
    ∧ Exp22.sir_bucket (1/10) = "Bottom-5" := by
  refine ⟨fun s => ⟨fun h => ?_, fun h1 h2 => ?_, fun h => ?_⟩, by with_unfolding_all decide,
    by with_unfolding_all decide, by with_unfolding_all decide⟩
  · simp [Exp22.sir_bucket, h]
  · simp [Exp22.sir_bucket, h1, not_le.mpr h2]
  · have h4 : ¬ (7/10 : ℚ) ≤ s := by linarith
    have h7 : ¬ (4/10 : ℚ) ≤ s := not_le.mpr h
    simp [Exp22.sir_bucket, h4, h7]

/-- Instantiation of `tier_thresholds` at the three concrete scores of
Scenario E. -/
theorem tier_thresholds_witness :
    ((7/10 : ℚ) ≤ 75/100 ∧ Exp22.sir_bucket (75/100) = "Top-5")
    ∧ ((4/10 : ℚ) ≤ 45/100 ∧ (45/100 : ℚ) < 7/10 ∧ Exp22.sir_bucket (45/100) = "Mid-5")
    ∧ ((1/10 : ℚ) < 4/10 ∧ Exp22.sir_bucket (1/10) = "Bottom-5") :=
  ⟨⟨by norm_num, (tier_thresholds.1 (75/100)).1 (by norm_num)⟩,
   ⟨by norm_num, by norm_num, (tier_thresholds.1 (45/100)).2.1 (by norm_num) (by norm_num)⟩,
   ⟨by norm_num, (tier_thresholds.1 (1/10)).2.2 (by norm_num)⟩⟩

/-! ## Reachability: `nx.descendants` and `nx.ancestors` -/

/-- One closure step: add every successor of a member not yet present.
Auxiliary to `DiGraph.reachSet`. -/
def DiGraph.reachStep (g : DiGraph) (s : List String) : List String :=
  s ++ ((s.flatMap g.succs).dedup.filter (fun v => decide (v ∉ s)))

/-- Iterate the closure step `n` times. -/
def DiGraph.reachIter (g : DiGraph) : ℕ → List String → List String
  | 0, s => s
  | n + 1, s => g.reachIter n (g.reachStep s)

/-- All nodes reachable from `u` (including `u`): enough iterations of the
closure step to saturate, since each step that is not yet saturated strictly
grows the list, whose members all lie in `u :: edge-targets`. -/
def DiGraph.reachSet (g : DiGraph) (u : String) : List String :=
  g.reachIter (g.edges.length + 1) [u]

/-- `nx.descendants(g, u)`: everything reachable from `u`, except `u` itself. -/
def descendantsList (g : DiGraph) (u : String) : List String :=
  (g.reachSet u).filter (fun v => decide (v ≠ u))

/-- `nx.ancestors(g, u)`: everything that reaches `u`, i.e. the descendants of
`u` in the reversed graph. -/
def ancestorsList (g : DiGraph) (u : String) : List String :=
  descendantsList g.reverse u

/-- Reflexive-transitive closure of the edge relation: `Reaches g u v` iff
there is a directed path from `u` to `v`. -/
inductive Reaches (g : DiGraph) : String → String → Prop
  | refl (u : String) : Reaches g u u
  | tail {u v w : String} : Reaches g u v → g.hasEdge v w = true → Reaches g u w

lemma mem_succs {g : DiGraph} {u v : String} :
    v ∈ g.succs u ↔ g.hasEdge u v = true := by
  simp only [DiGraph.succs, DiGraph.hasEdge, List.mem_map, List.mem_filter,
    List.any_eq_true, Bool.and_eq_true, beq_iff_eq]
  constructor
  · rintro ⟨e, ⟨he, h1⟩, h2⟩
    exact ⟨e, he, h1, h2⟩
  · rintro ⟨e, he, h1, h2⟩
    exact ⟨e, ⟨he, h1⟩, h2⟩

lemma subset_reachStep (g : DiGraph) (s : List String) : s ⊆ g.reachStep s :=
  fun _ h => List.mem_append_left _ h

lemma mem_reachStep {g : DiGraph} {s : List String} {v : String} :
    v ∈ g.reachStep s ↔ v ∈ s ∨ (v ∉ s ∧ ∃ u ∈ s, g.hasEdge u v = true) := by
  simp only [DiGraph.reachStep, List.mem_append, List.mem_filter, List.mem_dedup,
    List.mem_flatMap, decide_eq_true_eq, mem_succs]
  tauto

lemma reachStep_nodup {g : DiGraph} {s : List String} (h : s.Nodup) :
    (g.reachStep s).Nodup := by
  unfold DiGraph.reachStep
  refine List.nodup_append.2 ⟨h, (List.nodup_dedup _).filter _, ?_⟩
  intro a ha hb
  have := (List.mem_filter.1 hb).2
  simp only [decide_eq_true_eq] at this
  exact this ha

lemma reachStep_subset_cons {g : DiGraph} {s : List String} {u₀ : String}
    (h : s ⊆ u₀ :: g.edges.map (fun e => e.2.1)) :
    g.reachStep s ⊆ u₀ :: g.edges.map (fun e => e.2.1) := by
  intro v hv
  rcases mem_reachStep.1 hv with hv | ⟨-, w, -, hw⟩
  · exact h hv
  · refine List.mem_cons_of_mem _ ?_
    simp only [DiGraph.hasEdge, List.any_eq_true, Bool.and_eq_true, beq_iff_eq] at hw
    obtain ⟨e, he, -, h2⟩ := hw
    exact List.mem_map.2 ⟨e, he, h2⟩

/-- A list closed under the successor relation. -/
def ReachClosed (g : DiGraph) (s : List String) : Prop :=
  ∀ v ∈ s, ∀ w, g.hasEdge v w = true → w ∈ s

lemma closed_of_reachStep_eq {g : DiGraph} {s : List String}
    (h : g.reachStep s = s) : ReachClosed g s := by
  intro v hv w hw
  by_contra hws
  have : w ∈ g.reachStep s := mem_reachStep.2 (Or.inr ⟨hws, v, hv, hw⟩)
  rw [h] at this
  exact hws this

lemma reachIter_of_closed {g : DiGraph} {s : List String}
    (h : g.reachStep s = s) : ∀ n, g.reachIter n s = s := by
  intro n
  induction n with
  | zero => rfl
  | succ n ih =>
    show g.reachIter n (g.reachStep s) = s
    rw [h, ih]

lemma subset_reachIter (g : DiGraph) : ∀ (n : ℕ) (s : List String), s ⊆ g.reachIter n s := by
  intro n
  induction n with
  | zero => exact fun s a ha => ha
  | succ n ih =>
    intro s
    exact (subset_reachStep g s).trans (ih (g.reachStep s))

lemma reachStep_length_lt {g : DiGraph} {s : List String}
    (h : g.reachStep s ≠ s) : s.length + 1 ≤ (g.reachStep s).length := by
  unfold DiGraph.reachStep at h ⊢
  by_cases hb : (s.flatMap g.succs).dedup.filter (fun v => decide (v ∉ s)) = []
  · rw [hb] at h
    simp at h
  · rw [List.length_append]
    have := List.length_pos.2 hb
    omega

lemma reachIter_closed {g : DiGraph} (u₀ : String) :
    ∀ (n : ℕ) (s : List String), s.Nodup → s ⊆ u₀ :: g.edges.map (fun e => e.2.1) →
      g.edges.length + 1 ≤ n + s.length → ReachClosed g (g.reachIter n s) := by
  intro n
  induction n with
  | zero =>
    intro s hnd hsub hlen
    have hle : s.length ≤ g.edges.length + 1 := by
      have := (hnd.subperm hsub).length_le
      simpa using this
    have heq : s.length = g.edges.length + 1 := le_antisymm hle (by simpa using hlen)
    -- the list is as large as its ambient bound, hence saturated
    have hperm : List.Perm s (u₀ :: g.edges.map (fun e => e.2.1)) := by
      refine (hnd.subperm hsub).perm_of_length_le ?_
      simp [heq]
    intro v hv w hw
    show w ∈ g.reachIter 0 s
    have : w ∈ u₀ :: g.edges.map (fun e => e.2.1) := by
      refine List.mem_cons_of_mem _ ?_
      simp only [DiGraph.hasEdge, List.any_eq_true, Bool.and_eq_true, beq_iff_eq] at hw
      obtain ⟨e, he, -, h2⟩ := hw
      exact List.mem_map.2 ⟨e, he, h2⟩
    exact hperm.symm.subset this
  | succ n ih =>
    intro s hnd hsub hlen
    by_cases hfix : g.reachStep s = s
    · show ReachClosed g (g.reachIter n (g.reachStep s))
      rw [hfix, reachIter_of_closed hfix]
      exact closed_of_reachStep_eq hfix
    · show ReachClosed g (g.reachIter n (g.reachStep s))
      refine ih (g.reachStep s) (reachStep_nodup hnd) (reachStep_subset_cons hsub) ?_
      have := reachStep_length_lt hfix
      omega

lemma reachIter_sound {g : DiGraph} {u₀ : String} :
    ∀ (n : ℕ) (s : List String), (∀ v ∈ s, Reaches g u₀ v) →
      ∀ v ∈ g.reachIter n s, Reaches g u₀ v := by
  intro n
  induction n with
  | zero => exact fun s h => h
  | succ n ih =>
    intro s h v hv
    refine ih (g.reachStep s) ?_ v hv
    intro w hw
    rcases mem_reachStep.1 hw with hw | ⟨-, x, hx, hxe⟩
    · exact h w hw
    · exact Reaches.tail (h x hx) hxe

lemma reachSet_nodup (g : DiGraph) (u : String) : (g.reachSet u).Nodup := by
  unfold DiGraph.reachSet
  generalize g.edges.length + 1 = n
  have : ∀ (m : ℕ) (s : List String), s.Nodup → (g.reachIter m s).Nodup := by
    intro m
    induction m with
    | zero => exact fun s h => h
    | succ m ih => exact fun s h => ih _ (reachStep_nodup h)
  exact this n [u] (List.nodup_singleton u)

lemma mem_reachSet {g : DiGraph} {u v : String} :
    v ∈ g.reachSet u ↔ Reaches g u v := by
  constructor
  · intro hv
    refine reachIter_sound _ [u] ?_ v hv
    intro w hw
    rcases List.mem_singleton.1 hw with rfl
    exact Reaches.refl w
  · intro hr
    have hu : u ∈ g.reachSet u :=
      subset_reachIter g _ [u] (List.mem_singleton.2 rfl)
    have hclosed : ReachClosed g (g.reachSet u) := by
      refine reachIter_closed u (g.edges.length + 1) [u] (List.nodup_singleton u) ?_ ?_
      · intro x hx
        rcases List.mem_singleton.1 hx with rfl
        exact List.mem_cons_self _ _
      · simp
    induction hr with
    | refl => exact hu
    | tail hr he ih => exact hclosed _ ih _ he

lemma hasEdge_reverse {g : DiGraph} {u v : String} :
    g.reverse.hasEdge u v = g.hasEdge v u := by
  simp only [DiGraph.hasEdge, DiGraph.reverse, List.any_map]
  congr 1
  funext e
  simp only [Function.comp_apply]
  exact Bool.and_comm _ _

lemma reaches_head {g : DiGraph} {a b c : String}
    (hab : g.hasEdge a b = true) (hbc : Reaches g b c) : Reaches g a c := by
  induction hbc with
  | refl => exact Reaches.tail (Reaches.refl a) hab
  | tail _ he ih => exact Reaches.tail ih he

lemma reaches_reverse {g : DiGraph} {u v : String} :
    Reaches g.reverse u v ↔ Reaches g v u := by
  constructor
  · intro h
    induction h with
    | refl => exact Reaches.refl _
    | tail _ he ih =>
      rw [hasEdge_reverse] at he
      exact reaches_head he ih
  · intro h
    induction h with
    | refl => exact Reaches.refl _
    | tail _ he ih =>
      refine reaches_head ?_ ih
      rw [hasEdge_reverse]
      exact he

lemma mem_descendantsList {g : DiGraph} {u v : String} :
    v ∈ descendantsList g u ↔ v ≠ u ∧ Reaches g u v := by
  simp only [descendantsList, List.mem_filter, decide_eq_true_eq, mem_reachSet]
  tauto

lemma descendantsList_nodup (g : DiGraph) (u : String) : (descendantsList g u).Nodup :=
  (reachSet_nodup g u).filter _

lemma mem_ancestorsList {g : DiGraph} {u v : String} :
    v ∈ ancestorsList g u ↔ v ≠ u ∧ Reaches g v u := by
  rw [ancestorsList, mem_descendantsList, reaches_reverse]

lemma ancestorsList_nodup (g : DiGraph) (u : String) : (ancestorsList g u).Nodup :=
  descendantsList_nodup _ _

/-! ## Simple path enumeration (`nx.all_simple_paths(graph, source, target, cutoff=20)`) -/

/-- Fuelled DFS behind `all_simple_paths`: paths extending the visited prefix
`vis` from the current node `u` to the target `t`, using at most `fuel` more
edges and never revisiting a node of `vis ++ [u]`. -/
def simplePathsAux (g : DiGraph) (t : String) : ℕ → String → List String → List (List String)
  | 0, u, vis => if u = t then [vis ++ [u]] else []
  | Nat.succ n, u, vis =>
    if u = t then [vis ++ [u]]
    else
      (g.succs u).flatMap (fun v =>
        if v ∈ vis ++ [u] then [] else simplePathsAux g t n v (vis ++ [u]))

/-- `nx.all_simple_paths(g, s, t, cutoff)`: all simple paths from `s` to `t`
with at most `cutoff` edges. networkx raises `NodeNotFound` for endpoints
outside the graph; the caller in `find_chains` catches it and continues, so
that case contributes no paths. -/
def all_simple_paths (g : DiGraph) (s t : String) (cutoff : ℕ) : List (List String) :=
  if s ∈ g.nodes ∧ t ∈ g.nodes then simplePathsAux g t cutoff s [] else []

lemma mem_simplePathsAux (g : DiGraph) (t : String) :
    ∀ (fuel : ℕ) (u : String) (vis p : List String),
      (vis ++ [u]).Nodup →
      (p ∈ simplePathsAux g t fuel u vis ↔
        ∃ q : List String,
          p = vis ++ u :: q ∧ (u :: q).getLast? = some t ∧
          List.Chain' (fun a b => g.hasEdge a b = true) (u :: q) ∧
          (vis ++ u :: q).Nodup ∧ q.length ≤ fuel) := by
  have posCase : ∀ (fuel : ℕ) (u : String) (vis p : List String),
      (vis ++ [u]).Nodup → u = t →
      (p ∈ simplePathsAux g t fuel u vis ↔
        ∃ q : List String,
          p = vis ++ u :: q ∧ (u :: q).getLast? = some t ∧
          List.Chain' (fun a b => g.hasEdge a b = true) (u :: q) ∧
          (vis ++ u :: q).Nodup ∧ q.length ≤ fuel) := by
    intro fuel u vis p hnd hu
    have hrw : simplePathsAux g t fuel u vis = [vis ++ [u]] := by
      cases fuel with
      | zero => rw [simplePathsAux, if_pos hu]
      | succ n => rw [simplePathsAux, if_pos hu]
    rw [hrw]
    constructor
    · intro hp
      rcases List.mem_singleton.1 hp with rfl
      exact ⟨[], by simp, by simp [hu], List.chain'_singleton u, by simpa using hnd, by simp⟩
    · rintro ⟨q, rfl, hlast, -, hq, -⟩
      rcases q with _ | ⟨b, q'⟩
      · simp
      · exfalso
        rw [List.getLast?_cons_cons] at hlast
        have hmem : t ∈ b :: q' := List.mem_of_mem_getLast? hlast
        have hnd2 : (u :: b :: q').Nodup := (List.nodup_append.1 hq).2.1
        rw [List.nodup_cons] at hnd2
        exact hnd2.1 (by rw [hu]; exact hmem)
  intro fuel
  induction fuel with
  | zero =>
    intro u vis p hnd
    by_cases hu : u = t
    · exact posCase 0 u vis p hnd hu
    · rw [simplePathsAux, if_neg hu]
      constructor
      · intro h
        exact absurd h (List.not_mem_nil p)
      · rintro ⟨q, rfl, hlast, -, -, hlen⟩
        have hq : q = [] := List.length_eq_zero.1 (Nat.le_zero.1 hlen)
        subst hq
        simp only [List.getLast?_singleton, Option.some.injEq] at hlast
        exact absurd hlast hu
  | succ n ih =>
    intro u vis p hnd
    by_cases hu : u = t
    · exact posCase (n + 1) u vis p hnd hu
    · rw [simplePathsAux, if_neg hu]
      rw [List.mem_flatMap]
      constructor
      · rintro ⟨v, hv, hp⟩
        by_cases hvv : v ∈ vis ++ [u]
        · rw [if_pos hvv] at hp
          exact absurd hp (List.not_mem_nil p)
        · rw [if_neg hvv] at hp
          have hnd' : ((vis ++ [u]) ++ [v]).Nodup := by
            rw [List.nodup_append]
            refine ⟨hnd, List.nodup_singleton v, ?_⟩
            intro a ha hb
            rcases List.mem_singleton.1 hb with rfl
            exact hvv ha
          obtain ⟨q, hpq, hlast, hchain, hqnd, hlen⟩ := (ih v (vis ++ [u]) p hnd').1 hp
          refine ⟨v :: q, ?_, ?_, ?_, ?_, ?_⟩
          · simpa [List.append_assoc] using hpq
          · simpa using hlast
          · exact List.chain'_cons.2 ⟨mem_succs.1 hv, hchain⟩
          · simpa [List.append_assoc] using hqnd
          · simp only [List.length_cons]
            omega
      · rintro ⟨q, rfl, hlast, hchain, hqnd, hlen⟩
        rcases q with _ | ⟨v, q'⟩
        · exfalso
          simp only [List.getLast?_singleton, Option.some.injEq] at hlast
          exact absurd hlast hu
        · have hedge : g.hasEdge u v = true := (List.chain'_cons.1 hchain).1
          refine ⟨v, mem_succs.2 hedge, ?_⟩
          have hvv : v ∉ vis ++ [u] := by
            intro hmem
            rw [List.nodup_append] at hqnd
            rcases List.mem_append.1 hmem with h | h
            · exact hqnd.2.2 h (by simp)
            · rcases List.mem_singleton.1 h with rfl
              have := hqnd.2.1
              rw [List.nodup_cons] at this
              exact this.1 (List.mem_cons_self v q')
          rw [if_neg hvv]
          have hnd' : ((vis ++ [u]) ++ [v]).Nodup := by
            rw [List.nodup_append]
            refine ⟨hnd, List.nodup_singleton v, ?_⟩
            intro a ha hb
            rcases List.mem_singleton.1 hb with rfl
            exact hvv ha
          refine (ih v (vis ++ [u]) _ hnd').2 ⟨q', ?_, ?_, ?_, ?_, ?_⟩
          · simp [List.append_assoc]
          · simpa using hlast
          · exact (List.chain'_cons.1 hchain).2
          · simpa [List.append_assoc] using hqnd
          · have : (v :: q').length ≤ n + 1 := hlen
            simp only [List.length_cons] at this
            omega

lemma mem_all_simple_paths {g : DiGraph} {s t : String} {cutoff : ℕ} {p : List String} :
    p ∈ all_simple_paths g s t cutoff ↔
      s ∈ g.nodes ∧ t ∈ g.nodes ∧
      ∃ q : List String,
        p = s :: q ∧ (s :: q).getLast? = some t ∧
        List.Chain' (fun a b => g.hasEdge a b = true) (s :: q) ∧
        (s :: q).Nodup ∧ q.length ≤ cutoff := by
  unfold all_simple_paths
  by_cases h : s ∈ g.nodes ∧ t ∈ g.nodes
  · rw [if_pos h]
    have := mem_simplePathsAux g t cutoff s [] p (by simp)
    simp only [List.nil_append] at this
    rw [this]
    constructor
    · rintro ⟨q, rfl, h1, h2, h3, h4⟩
      exact ⟨h.1, h.2, q, rfl, h1, h2, by simpa using h3, h4⟩
    · rintro ⟨-, -, q, rfl, h1, h2, h3, h4⟩
      exact ⟨q, rfl, h1, h2, by simpa using h3, h4⟩
  · rw [if_neg h]
    simp only [List.not_mem_nil, false_iff]
    intro hc
    exact h ⟨hc.1, hc.2.1⟩

/-! ## Relationship merging (`RelationshipAnalyzer`, `experiment_code.py`
lines 359-455) -/

/-- The `relationship_strengths` dict of `RelationshipAnalyzer.__init__`
(lines 363-368). -/
def relationship_strengths : List (String × ℚ) :=
  [("call", 8/10), ("data", 7/10), ("control", 6/10), ("module", 9/10)]

/-- A raw single-typed candidate edge exactly as the dependency analyzers
construct it: `types=[ty]` and `strength=self.relationship_strengths[ty]`. -/
def mkRawRelationship (s t ty : String) : SatdRelationship :=
  ⟨s, t, [ty], (relationship_strengths.lookup ty).getD 0⟩

/-- The edge-insertion loop of `find_all_relationships` (lines 440-453) and of
`find_chains` (lines 484-491): insert every relationship as a graph edge (the
`add_node` calls it also makes are subsumed by `add_edge`). -/
def buildGraph : DiGraph → List SatdRelationship → DiGraph
  | g, [] => g
  | g, rel :: rest => buildGraph (g.add_edge rel.source_id rel.target_id ⟨rel.types, rel.strength⟩) rest

/-- `RelationshipAnalyzer.find_all_relationships`: the four analyzers produce
`all_relationships = call_rel + data_rel + control_rel + module_rel` (the
argument here), every one of which is inserted into the initially empty
`self.graph`; the concatenated list itself is returned unchanged. -/
def RelationshipAnalyzer.find_all_relationships (all_relationships : List SatdRelationship) :
    List SatdRelationship × DiGraph :=
  (all_relationships, buildGraph DiGraph.empty all_relationships)

/-- The graph built at the start of `ChainAnalyzer.find_chains`
(lines 473-491): one node per debt item in list order, then one edge per
relationship. -/
def addDebtNodes : DiGraph → List TechnicalDebt → DiGraph
  | g, [] => g
  | g, debt :: rest => addDebtNodes (g.addNode debt.id) rest

def chainsGraph (relationships : List SatdRelationship)
    (debt_items : List TechnicalDebt) : DiGraph :=
  buildGraph (addDebtNodes DiGraph.empty debt_items) relationships

/-- `','.join(chain.nodes)`, the deduplication key of `find_chains`. -/
def pathStr (nodes : List String) : String := String.intercalate "," nodes

/-- The candidate chains of `find_chains` (lines 497-515): for every ordered
pair of distinct graph nodes, every simple path with `cutoff=20`, kept when it
has at least 2 nodes. -/
def candidateChains (g : DiGraph) : List (List String) :=
  g.nodes.flatMap (fun s =>
    g.nodes.flatMap (fun t =>
      if s = t then []
      else (all_simple_paths g s t 20).filter (fun p => decide (2 ≤ p.length))))

/-- The deduplication loop of `find_chains` (lines 517-525): drop a chain when
its joined node string was already seen, keeping first occurrences in order. -/
def dedupChains : List (List String) → List String → List (List String)
  | [], _ => []
  | c :: rest, seen =>
    if pathStr c ∈ seen then dedupChains rest seen
    else c :: dedupChains rest (pathStr c :: seen)

/-- The comparison realising `unique_chains.sort(key=lambda ch: ch.length,
reverse=True)`: merge sort with this relation is exactly CPython's stable
length-descending sort. -/
def lenDescB (x y : List String) : Bool := decide (y.length ≤ x.length)

/-- `ChainAnalyzer.find_chains(relationships, debt_items)`, restricted to the
chain list it returns (its other component, the chain-annotated relationship
copies, and the sequential `chain-i` id labels are consumed by no claim):
build the graph, enumerate candidate simple paths per ordered node pair,
deduplicate by node sequence, stable-sort by length descending. -/
def ChainAnalyzer.find_chains (relationships : List SatdRelationship)
    (debt_items : List TechnicalDebt) : List (List String) :=
  (dedupChains (candidateChains (chainsGraph relationships debt_items)) []).mergeSort lenDescB

lemma dedupChains_sublist : ∀ (l : List (List String)) (seen : List String),
    List.Sublist (dedupChains l seen) l := by
  intro l
  induction l with
  | nil => intro seen; exact List.Sublist.refl _
  | cons c rest ih =>
    intro seen
    rw [dedupChains]
    by_cases h : pathStr c ∈ seen
    · rw [if_pos h]
      exact (ih seen).cons c
    · rw [if_neg h]
      exact (ih (pathStr c :: seen)).cons₂ c

lemma dedupChains_spec : ∀ (l : List (List String)) (seen : List String),
    (dedupChains l seen).Pairwise (fun a b => pathStr a ≠ pathStr b)
    ∧ ∀ c ∈ dedupChains l seen, pathStr c ∉ seen := by
  intro l
  induction l with
  | nil => intro seen; exact ⟨List.Pairwise.nil, by intro c hc; cases hc⟩
  | cons c rest ih =>
    intro seen
    rw [dedupChains]
    by_cases h : pathStr c ∈ seen
    · rw [if_pos h]
      exact ih seen
    · rw [if_neg h]
      obtain ⟨hpw, hseen⟩ := ih (pathStr c :: seen)
      refine ⟨List.Pairwise.cons ?_ hpw, ?_⟩
      · intro b hb heq
        exact hseen b hb (heq ▸ List.mem_cons_self _ _)
      · intro d hd
        rcases List.mem_cons.1 hd with rfl | hd'
        · exact h
        · intro hds
          exact hseen d hd' (List.mem_cons_of_mem _ hds)

lemma addNode_edges (g : DiGraph) (u : String) : (g.addNode u).edges = g.edges := by
  unfold DiGraph.addNode
  split <;> rfl

lemma mem_addNode_nodes {g : DiGraph} {u v : String} :
    v ∈ (g.addNode u).nodes ↔ v ∈ g.nodes ∨ v = u := by
  unfold DiGraph.addNode
  split
  · rename_i h
    constructor
    · exact Or.inl
    · rintro (h1 | rfl)
      · exact h1
      · exact h
  · simp

lemma add_edge_def (g : DiGraph) (u v : String) (d : EdgeData) :
    g.add_edge u v d =
      if ((g.addNode u).addNode v).edges.any (fun e => e.1 == u && e.2.1 == v) then
        { nodes := ((g.addNode u).addNode v).nodes,
          edges := ((g.addNode u).addNode v).edges.map
            (fun e => if e.1 == u && e.2.1 == v then (u, v, d) else e) }
      else
        { nodes := ((g.addNode u).addNode v).nodes,
          edges := ((g.addNode u).addNode v).edges ++ [(u, v, d)] } := rfl

lemma add_edge_cases (g : DiGraph) (u v : String) (d : EdgeData) :
    (g.add_edge u v d).nodes = ((g.addNode u).addNode v).nodes ∧
    (g.add_edge u v d).edges =
      (if g.edges.any (fun e => e.1 == u && e.2.1 == v) then
        g.edges.map (fun e => if e.1 == u && e.2.1 == v then (u, v, d) else e)
      else g.edges ++ [(u, v, d)]) := by
  rw [add_edge_def, addNode_edges, addNode_edges]
  by_cases h : g.edges.any (fun e => e.1 == u && e.2.1 == v) = true
  · rw [if_pos h, if_pos h]
    exact ⟨rfl, rfl⟩
  · rw [if_neg h, if_neg h]
    exact ⟨rfl, rfl⟩

lemma findEdge_cons (a b : String) (x : String × String × EdgeData)
    (l : List (String × String × EdgeData)) :
    (x :: l).find? (fun e => e.1 == a && e.2.1 == b)
      = if x.1 = a ∧ x.2.1 = b then some x
        else l.find? (fun e => e.1 == a && e.2.1 == b) := by
  by_cases h : x.1 = a ∧ x.2.1 = b
  · rw [if_pos h]
    exact List.find?_cons_of_pos l (by simp [h.1, h.2])
  · rw [if_neg h]
    refine List.find?_cons_of_neg l ?_
    simp only [Bool.and_eq_true, beq_iff_eq]
    exact h

lemma find?_map_replace {u v a b : String} {d : EdgeData}
    (hne : ¬ (a = u ∧ b = v)) :
    ∀ (l : List (String × String × EdgeData)),
      (l.map (fun e => if e.1 == u && e.2.1 == v then (u, v, d) else e)).find?
          (fun e => e.1 == a && e.2.1 == b)
        = l.find? (fun e => e.1 == a && e.2.1 == b) := by
  intro l
  induction l with
  | nil => rfl
  | cons e l ih =>
    simp only [List.map_cons]
    by_cases hk : (e.1 == u && e.2.1 == v) = true
    · have hk2 : e.1 = u ∧ e.2.1 = v := by
        simpa only [Bool.and_eq_true, beq_iff_eq] using hk
      rw [if_pos hk, findEdge_cons, findEdge_cons]
      rw [if_neg (fun hc => hne ⟨hc.1.symm, hc.2.symm⟩),
        if_neg (fun hc => hne ⟨hc.1.symm.trans hk2.1, hc.2.symm.trans hk2.2⟩)]
      exact ih
    · rw [if_neg hk, findEdge_cons, findEdge_cons]
      by_cases he : e.1 = a ∧ e.2.1 = b
      · rw [if_pos he, if_pos he]
      · rw [if_neg he, if_neg he]
        exact ih

lemma find?_map_replace_self {u v : String} {d : EdgeData} :
    ∀ (l : List (String × String × EdgeData)),
      l.any (fun e => e.1 == u && e.2.1 == v) = true →
      (l.map (fun e => if e.1 == u && e.2.1 == v then (u, v, d) else e)).find?
          (fun e => e.1 == u && e.2.1 == v)
        = some (u, v, d) := by
  intro l
  induction l with
  | nil => intro h; cases h
  | cons e l ih =>
    intro h
    simp only [List.map_cons]
    by_cases hk : (e.1 == u && e.2.1 == v) = true
    · rw [if_pos hk, findEdge_cons, if_pos ⟨rfl, rfl⟩]
    · rw [if_neg hk, findEdge_cons]
      have hk2 : ¬ (e.1 = u ∧ e.2.1 = v) := by
        intro hc
        exact hk (by simp [hc.1, hc.2])
      rw [if_neg hk2]
      refine ih ?_
      rcases List.any_eq_true.1 h with ⟨x, hx, hxk⟩
      rcases List.mem_cons.1 hx with rfl | hx2
      · exact absurd hxk hk
      · exact List.any_eq_true.2 ⟨x, hx2, hxk⟩

lemma edgeData_add_edge (g : DiGraph) (u v a b : String) (d : EdgeData) :
    (g.add_edge u v d).edgeData a b =
      if a = u ∧ b = v then some d else g.edgeData a b := by
  unfold DiGraph.edgeData
  rw [(add_edge_cases g u v d).2]
  by_cases hany : g.edges.any (fun e => e.1 == u && e.2.1 == v) = true
  · rw [if_pos hany]
    by_cases hab : a = u ∧ b = v
    · rcases hab with ⟨rfl, rfl⟩
      rw [if_pos ⟨rfl, rfl⟩, find?_map_replace_self g.edges hany]
      rfl
    · rw [if_neg hab, find?_map_replace hab g.edges]
  · rw [if_neg hany, List.find?_append]
    by_cases hab : a = u ∧ b = v
    · rcases hab with ⟨rfl, rfl⟩
      rw [if_pos ⟨rfl, rfl⟩]
      have h1 : g.edges.find? (fun e => e.1 == a && e.2.1 == b) = none := by
        rw [List.find?_eq_none]
        intro x hx hpx
        exact hany (List.any_eq_true.2 ⟨x, hx, hpx⟩)
      rw [h1, Option.none_or, List.find?_singleton, if_pos (by simp)]
      rfl
    · rw [if_neg hab, List.find?_singleton]
      rw [if_neg (by
        simp only [Bool.and_eq_true, beq_iff_eq]
        rintro ⟨h1, h2⟩
        exact hab ⟨h1.symm, h2.symm⟩), Option.or_none]

lemma mem_add_edge_nodes {g : DiGraph} {u v w : String} {d : EdgeData} :
    w ∈ (g.add_edge u v d).nodes ↔ w ∈ g.nodes ∨ w = u ∨ w = v := by
  rw [(add_edge_cases g u v d).1, mem_addNode_nodes, mem_addNode_nodes]
  tauto

/-- Specification of last-write-wins edge insertion: the `types`/`strength`
data of the LAST raw relationship for ordered pair `(a, b)` in list order
(later entries shadow earlier ones). -/
def lookupLast : List SatdRelationship → String → String → Option EdgeData
  | [], _, _ => none
  | r :: rels, a, b =>
    (lookupLast rels a b).or
      (if r.source_id = a ∧ r.target_id = b then some ⟨r.types, r.strength⟩ else none)

lemma edgeData_buildGraph (a b : String) :
    ∀ (rels : List SatdRelationship) (g0 : DiGraph),
      (buildGraph g0 rels).edgeData a b = (lookupLast rels a b).or (g0.edgeData a b) := by
  intro rels
  induction rels with
  | nil =>
    intro g0
    rw [buildGraph, lookupLast, Option.none_or]
  | cons r rels ih =>
    intro g0
    rw [buildGraph, lookupLast, ih, edgeData_add_edge, Option.or_assoc]
    congr 1
    by_cases hr : a = r.source_id ∧ b = r.target_id
    · rw [if_pos hr, if_pos ⟨hr.1.symm, hr.2.symm⟩]
      rfl
    · rw [if_neg hr, if_neg (fun hc => hr ⟨hc.1.symm, hc.2.symm⟩), Option.none_or]

lemma mem_buildGraph_nodes (w : String) :
    ∀ (rels : List SatdRelationship) (g0 : DiGraph),
      (w ∈ (buildGraph g0 rels).nodes ↔
        w ∈ g0.nodes ∨ ∃ r ∈ rels, w = r.source_id ∨ w = r.target_id) := by
  intro rels
  induction rels with
  | nil =>
    intro g0
    rw [buildGraph]
    simp
  | cons r rels ih =>
    intro g0
    rw [buildGraph, ih, mem_add_edge_nodes]
    simp only [List.mem_cons]
    constructor
    · rintro ((h | h | h) | ⟨x, hx, hw⟩)
      · exact Or.inl h
      · exact Or.inr ⟨r, Or.inl rfl, Or.inl h⟩
      · exact Or.inr ⟨r, Or.inl rfl, Or.inr h⟩
      · exact Or.inr ⟨x, Or.inr hx, hw⟩
    · rintro (h | ⟨x, rfl | hx, hw⟩)
      · exact Or.inl (Or.inl h)
      · rcases hw with h | h
        · exact Or.inl (Or.inr (Or.inl h))
        · exact Or.inl (Or.inr (Or.inr h))
      · exact Or.inr ⟨x, hx, hw⟩

/-- At most one edge per ordered pair: no two stored edges share their
`(source, target)` key. -/
def KeysDistinct (g : DiGraph) : Prop :=
  g.edges.Pairwise (fun e1 e2 => ¬ (e1.1 = e2.1 ∧ e1.2.1 = e2.2.1))

lemma keysDistinct_add_edge {g : DiGraph} {u v : String} {d : EdgeData}
    (h : KeysDistinct g) : KeysDistinct (g.add_edge u v d) := by
  rw [KeysDistinct, (add_edge_cases g u v d).2]
  by_cases hany : g.edges.any (fun e => e.1 == u && e.2.1 == v) = true
  · rw [if_pos hany, List.pairwise_map]
    refine h.imp ?_
    intro e1 e2 hne hc
    have key1 : ∀ e : String × String × EdgeData,
        ((if e.1 == u && e.2.1 == v then (u, v, d) else e).1,
          (if e.1 == u && e.2.1 == v then (u, v, d) else e).2.1) = (e.1, e.2.1) := by
      intro e
      by_cases hk : (e.1 == u && e.2.1 == v) = true
      · have hk2 : e.1 = u ∧ e.2.1 = v := by
          simpa only [Bool.and_eq_true, beq_iff_eq] using hk
        rw [if_pos hk, hk2.1, hk2.2]
      · rw [if_neg hk]
    have k1 := key1 e1
    have k2 := key1 e2
    rw [Prod.mk.injEq] at k1 k2
    exact hne ⟨(k1.1.symm.trans hc.1).trans k2.1, (k1.2.symm.trans hc.2).trans k2.2⟩
  · rw [if_neg hany, List.pairwise_append]
    refine ⟨h, List.pairwise_singleton _ _, ?_⟩
    intro e1 he1 e2 he2 hc
    rcases List.mem_singleton.1 he2 with rfl
    exact hany (List.any_eq_true.2 ⟨e1, he1, by simp [hc.1, hc.2]⟩)

lemma keysDistinct_buildGraph :
    ∀ (rels : List SatdRelationship) (g0 : DiGraph),
      KeysDistinct g0 → KeysDistinct (buildGraph g0 rels) := by
  intro rels
  induction rels with
  | nil => intro g0 h; exact h
  | cons r rels ih =>
    intro g0 h
    rw [buildGraph]
    exact ih _ (keysDistinct_add_edge h)

lemma keysDistinct_empty : KeysDistinct DiGraph.empty := List.Pairwise.nil

/-- Every stored edge's endpoints are graph nodes. -/
def EndpointsRegistered (g : DiGraph) : Prop :=
  ∀ e ∈ g.edges, e.1 ∈ g.nodes ∧ e.2.1 ∈ g.nodes

lemma endpointsRegistered_addNode {g : DiGraph} {u : String}
    (h : EndpointsRegistered g) : EndpointsRegistered (g.addNode u) := by
  intro e he
  rw [addNode_edges] at he
  obtain ⟨h1, h2⟩ := h e he
  exact ⟨mem_addNode_nodes.2 (Or.inl h1), mem_addNode_nodes.2 (Or.inl h2)⟩

lemma endpointsRegistered_add_edge {g : DiGraph} {u v : String} {d : EdgeData}
    (h : EndpointsRegistered g) : EndpointsRegistered (g.add_edge u v d) := by
  intro e he
  rw [(add_edge_cases g u v d).2] at he
  have hu : u ∈ (g.add_edge u v d).nodes := mem_add_edge_nodes.2 (Or.inr (Or.inl rfl))
  have hv : v ∈ (g.add_edge u v d).nodes := mem_add_edge_nodes.2 (Or.inr (Or.inr rfl))
  have hold : ∀ x ∈ g.edges, x.1 ∈ (g.add_edge u v d).nodes ∧ x.2.1 ∈ (g.add_edge u v d).nodes := by
    intro x hx
    obtain ⟨h1, h2⟩ := h x hx
    exact ⟨mem_add_edge_nodes.2 (Or.inl h1), mem_add_edge_nodes.2 (Or.inl h2)⟩
  by_cases hany : g.edges.any (fun e => e.1 == u && e.2.1 == v) = true
  · rw [if_pos hany] at he
    rcases List.mem_map.1 he with ⟨x, hx, rfl⟩
    by_cases hk : (x.1 == u && x.2.1 == v) = true
    · rw [if_pos hk]
      exact ⟨hu, hv⟩
    · rw [if_neg hk]
      exact hold x hx
  · rw [if_neg hany] at he
    rcases List.mem_append.1 he with he1 | he1
    · exact hold e he1
    · rcases List.mem_singleton.1 he1 with rfl
      exact ⟨hu, hv⟩

lemma endpointsRegistered_buildGraph :
    ∀ (rels : List SatdRelationship) (g0 : DiGraph),
      EndpointsRegistered g0 → EndpointsRegistered (buildGraph g0 rels) := by
  intro rels
  induction rels with
  | nil => intro g0 h; exact h
  | cons r rels ih =>
    intro g0 h
    rw [buildGraph]
    exact ih _ (endpointsRegistered_add_edge h)

lemma endpointsRegistered_addDebtNodes :
    ∀ (debts : List TechnicalDebt) (g0 : DiGraph),
      EndpointsRegistered g0 → EndpointsRegistered (addDebtNodes g0 debts) := by
  intro debts
  induction debts with
  | nil => intro g0 h; exact h
  | cons debt debts ih =>
    intro g0 h
    rw [addDebtNodes]
    exact ih _ (endpointsRegistered_addNode h)

lemma endpointsRegistered_chainsGraph (rels : List SatdRelationship)
    (debts : List TechnicalDebt) : EndpointsRegistered (chainsGraph rels debts) :=
  endpointsRegistered_buildGraph rels _
    (endpointsRegistered_addDebtNodes debts DiGraph.empty (fun e he => absurd he (List.not_mem_nil e)))

/-- Every node that ends up on a simple path between graph nodes is itself a
graph node (the start node by assumption, every later one as an edge target). -/
lemma chain_nodes_mem {g : DiGraph} (hreg : EndpointsRegistered g) :
    ∀ (q : List String) (s : String), s ∈ g.nodes →
      List.Chain' (fun a b => g.hasEdge a b = true) (s :: q) →
      ∀ x ∈ s :: q, x ∈ g.nodes := by
  intro q
  induction q with
  | nil =>
    intro s hs _ x hx
    rcases List.mem_singleton.1 hx with rfl
    exact hs
  | cons b q ih =>
    intro s hs hchain x hx
    have hedge : g.hasEdge s b = true := (List.chain'_cons.1 hchain).1
    have hb : b ∈ g.nodes := by
      rcases List.any_eq_true.1 hedge with ⟨e, he, hk⟩
      simp only [Bool.and_eq_true, beq_iff_eq] at hk
      exact hk.2 ▸ (hreg e he).2
    rcases List.mem_cons.1 hx with rfl | hx2
    · exact hs
    · exact ih b hb (List.chain'_cons.1 hchain).2 x hx2

lemma mem_candidateChains {g : DiGraph} {p : List String} :
    p ∈ candidateChains g ↔
      ∃ s t : String, s ∈ g.nodes ∧ t ∈ g.nodes ∧ s ≠ t ∧
        p.head? = some s ∧ p.getLast? = some t ∧
        List.Chain' (fun a b => g.hasEdge a b = true) p ∧
        p.Nodup ∧ 2 ≤ p.length ∧ p.length ≤ 21 := by
  unfold candidateChains
  rw [List.mem_flatMap]
  constructor
  · rintro ⟨s, hs, hp⟩
    rw [List.mem_flatMap] at hp
    obtain ⟨t, ht, hp⟩ := hp
    by_cases hst : s = t
    · rw [if_pos hst] at hp
      exact absurd hp (List.not_mem_nil p)
    · rw [if_neg hst] at hp
      obtain ⟨hasp, hlen⟩ := List.mem_filter.1 hp
      obtain ⟨-, -, q, rfl, hlast, hchain, hnd, hqlen⟩ := mem_all_simple_paths.1 hasp
      refine ⟨s, t, hs, ht, hst, rfl, hlast, hchain, hnd, ?_, ?_⟩
      · simpa using hlen
      · simpa using Nat.add_le_add_right hqlen 1
  · rintro ⟨s, t, hs, ht, hst, hhead, hlast, hchain, hnd, hlen2, hlen21⟩
    rcases p with _ | ⟨x, q⟩
    · cases hhead
    · have hx : x = s := by
        simpa using hhead
      subst hx
      refine ⟨x, hs, ?_⟩
      rw [List.mem_flatMap]
      refine ⟨t, ht, ?_⟩
      rw [if_neg hst]
      refine List.mem_filter.2 ⟨?_, by simpa using hlen2⟩
      refine mem_all_simple_paths.2 ⟨hs, ht, q, rfl, hlast, hchain, hnd, ?_⟩
      have : q.length + 1 ≤ 21 := by simpa using hlen21
      omega

/-! ## Chain metrics and SIR scoring -/

lemma mem_find_chains {rels : List SatdRelationship} {debts : List TechnicalDebt}
    {c : List String} :
    c ∈ ChainAnalyzer.find_chains rels debts ↔
      c ∈ dedupChains (candidateChains (chainsGraph rels debts)) [] := by
  unfold ChainAnalyzer.find_chains
  exact List.mem_mergeSort

lemma find_chains_mem_candidates {rels : List SatdRelationship}
    {debts : List TechnicalDebt} {c : List String}
    (h : c ∈ ChainAnalyzer.find_chains rels debts) :
    c ∈ candidateChains (chainsGraph rels debts) :=
  (dedupChains_sublist _ []).subset (mem_find_chains.1 h)

lemma le_foldr_max {l : List ℕ} {a : ℕ} (h : a ∈ l) : a ≤ l.foldr max 0 := by
  induction l with
  | nil => cases h
  | cons b l ih =>
    rcases List.mem_cons.1 h with rfl | h2
    · exact le_max_left _ _
    · exact le_trans (ih h2) (le_max_right _ _)

lemma foldr_max_le {l : List ℕ} {m : ℕ} (h : ∀ a ∈ l, a ≤ m) : l.foldr max 0 ≤ m := by
  induction l with
  | nil => exact Nat.zero_le m
  | cons b l ih => exact max_le (h b (by simp)) (ih fun a ha => h a (List.mem_cons_of_mem _ ha))

/-- The default weights dict of `SirCalculator.__init__`
(`experiment_code.py` lines 635-641). -/
structure SirWeights where
  severity : ℚ
  outgoing : ℚ
  incoming : ℚ
  chain_length : ℚ
deriving DecidableEq, Repr

def defaultSirWeights : SirWeights := ⟨4/10, 3/10, 1/10, 4/10⟩

/-- `SirCalculator._calculate_outgoing_influence(debt_id, graph)`
(lines 728-735): `len(nx.descendants(graph, debt_id))`; a node outside the
graph raises inside `nx.descendants` and the handler returns 0. -/
def SirCalculator.calculate_outgoing_influence (debt_id : String) (graph : DiGraph) : ℕ :=
  if debt_id ∈ graph.nodes then (descendantsList graph debt_id).length else 0

/-- `SirCalculator._calculate_incoming_dependency(debt_id, graph)`
(lines 737-744): `len(nx.ancestors(graph, debt_id))` with the same handler. -/
def SirCalculator.calculate_incoming_dependency (debt_id : String) (graph : DiGraph) : ℕ :=
  if debt_id ∈ graph.nodes then (ancestorsList graph debt_id).length else 0

/-- `SirCalculator._calculate_chain_length_factor(debt_id, chains,
max_chain_length)` (lines 746-755): 0 when the node is in no chain or the
corpus maximum is ≤ 1, else the longest chain containing the node divided by
the corpus maximum. `foldr max 0` of a nonempty length list is Python's
`max(...)`. -/
def SirCalculator.calculate_chain_length_factor (chains : List (List String))
    (max_chain_length : ℕ) : ℚ :=
  if chains = [] ∨ max_chain_length ≤ 1 then 0
  else
    let longest : ℕ := (chains.map List.length).foldr max 0
    (longest : ℚ) / (max_chain_length : ℚ)

/-- `SirCalculator.calculate_sir_scores(debt_items, relationships, chains,
graph)` (lines 643-698). The Python mutates each `debt` in place (assigning
exactly `sir_score` and `sir_components`) and returns the same list object;
the state after the call is modelled as the list of updated records, in
order. `debt_in_chains.get(debt.id, [])` is the sublist of chains containing
the id, and `max_chain_length` is 1 for an empty chain list. The
`relationships` argument is unused by the source body as well. -/
def SirCalculator.calculate_sir_scores (w : SirWeights) (debt_items : List TechnicalDebt)
    (relationships : List SatdRelationship) (chains : List (List String))
    (graph : DiGraph) : List TechnicalDebt :=
  let max_chain_length := if chains = [] then 1 else (chains.map List.length).foldr max 0
  debt_items.map (fun debt =>
    let severity := SirCalculator.calculate_intrinsic_severity debt
    let outgoing := SirCalculator.calculate_outgoing_influence debt.id graph
    let incoming := SirCalculator.calculate_incoming_dependency debt.id graph
    let chain_length_factor := SirCalculator.calculate_chain_length_factor
      (chains.filter (fun c => c.contains debt.id)) max_chain_length
    let sir_score := w.severity * severity + w.outgoing * (outgoing : ℚ)
      - w.incoming * (incoming : ℚ) + w.chain_length * chain_length_factor
    { debt with
        sir_score := sir_score,
        sir_components :=
          ⟨severity, (outgoing : ℚ), (incoming : ℚ), chain_length_factor⟩ })

/-- The metrics dict returned by `ChainAnalyzer.calculate_chain_metrics`. -/
structure ChainMetrics where
  average_chain_length : ℚ
  maximum_chain_length : ℕ
  participation_rate : ℚ
  cross_module_chains : ℚ
deriving DecidableEq, Repr

/-- `os.path.dirname` for the POSIX-style relative paths the scanner
produces: everything before the last `/`, empty for a bare filename. -/
def dirname (p : String) : String :=
  String.intercalate "/" ((p.splitOn "/").dropLast)

/-- Lookup in the `debt_map = {debt.id: debt}` dict: on duplicate ids the
later list entry wins, hence the reversed search. -/
def debtMapFind (debt_items : List TechnicalDebt) (n : String) : Option TechnicalDebt :=
  debt_items.reverse.find? (fun d => d.id == n)

/-- `ChainAnalyzer.calculate_chain_metrics(chains, debt_items)`
(lines 579-631): zero metrics for an empty chain list; otherwise mean and
maximum chain length, distinct participating nodes over the debt count (0 for
an empty corpus), and the fraction of chains whose member nodes found in
`debt_map` span more than one file directory. -/
def ChainAnalyzer.calculate_chain_metrics (chains : List (List String))
    (debt_items : List TechnicalDebt) : ChainMetrics :=
  if chains = [] then ⟨0, 0, 0, 0⟩
  else
    let chain_lengths := chains.map List.length
    let avg : ℚ := if chain_lengths = [] then 0
      else (chain_lengths.sum : ℚ) / (chain_lengths.length : ℚ)
    let participating := (chains.flatMap id).dedup
    let pr : ℚ := if debt_items = [] then 0
      else (participating.length : ℚ) / (debt_items.length : ℚ)
    let cross_count := chains.countP (fun c =>
      decide (1 < ((c.filterMap (fun n => (debtMapFind debt_items n).map
        (fun d => dirname d.file))).dedup.length)))
    ⟨avg, chain_lengths.foldr max 0, pr, (cross_count : ℚ) / (chains.length : ℚ)⟩

lemma mem_zip_map {α β : Type} (f : α → β) (l : List α) (p : α × β)
    (hp : p ∈ l.zip (l.map f)) : p.2 = f p.1 := by
  induction l with
  | nil => cases hp
  | cons a l ih =>
    simp only [List.map_cons, List.zip_cons_cons] at hp
    rcases List.mem_cons.1 hp with rfl | h2
    · rfl
    · exact ih h2

/-! ## Claim theorems -/

/-- C1. For every SATD instance scored by `SirCalculator.calculate_sir_scores`
with the default weights, the composite score equals
`0.4·severity + 0.3·outgoing_influence − 0.1·incoming_dependency +
0.4·chain_length_factor`, where the outgoing influence is the number of
descendants of the node in the merged directed graph (the nodes `v ≠ u`
reachable from `u`, counted without repetition) and the incoming dependency is
the number of its ancestors, both being 0 for a node absent from the graph. -/
theorem sir_score_formula (debt_items : List TechnicalDebt)
    (relationships : List SatdRelationship) (chains : List (List String))
    (graph : DiGraph) :
    (∀ p ∈ debt_items.zip
        (SirCalculator.calculate_sir_scores defaultSirWeights debt_items relationships
          chains graph),
      p.2.sir_score =
        (4/10) * p.2.sir_components.severity
          + (3/10) * p.2.sir_components.outDependencies
          - (1/10) * p.2.sir_components.inDependencies
          + (4/10) * p.2.sir_components.chainLengthFactor
      ∧ p.2.sir_components.severity = SirCalculator.calculate_intrinsic_severity p.1
      ∧ p.2.sir_components.outDependencies
          = (SirCalculator.calculate_outgoing_influence p.1.id graph : ℚ)
      ∧ p.2.sir_components.inDependencies
          = (SirCalculator.calculate_incoming_dependency p.1.id graph : ℚ)
      ∧ (p.1.id ∉ graph.nodes →
          SirCalculator.calculate_outgoing_influence p.1.id graph = 0
          ∧ SirCalculator.calculate_incoming_dependency p.1.id graph = 0)
      ∧ (p.1.id ∈ graph.nodes →
          SirCalculator.calculate_outgoing_influence p.1.id graph
            = (descendantsList graph p.1.id).length
          ∧ SirCalculator.calculate_incoming_dependency p.1.id graph
            = (ancestorsList graph p.1.id).length))
    ∧ (∀ u v : String,
        (v ∈ descendantsList graph u ↔ v ≠ u ∧ Reaches graph u v)
        ∧ (v ∈ ancestorsList graph u ↔ v ≠ u ∧ Reaches graph v u))
    ∧ (∀ u : String, (descendantsList graph u).Nodup ∧ (ancestorsList graph u).Nodup) := by
  refine ⟨?_, fun u v => ⟨mem_descendantsList, mem_ancestorsList⟩,
    fun u => ⟨descendantsList_nodup _ _, ancestorsList_nodup _ _⟩⟩
  intro p hp
  have h2 := mem_zip_map _ debt_items p hp
  rw [h2]
  refine ⟨rfl, rfl, rfl, rfl, fun hnot => ?_, fun hmem => ?_⟩
  · unfold SirCalculator.calculate_outgoing_influence SirCalculator.calculate_incoming_dependency
    rw [if_neg hnot, if_neg hnot]
    exact ⟨rfl, rfl⟩
  · unfold SirCalculator.calculate_outgoing_influence SirCalculator.calculate_incoming_dependency
    rw [if_pos hmem, if_pos hmem]
    exact ⟨rfl, rfl⟩

/-- A two-node, one-edge graph used to instantiate the scoring claims. -/
def c1Graph : DiGraph := DiGraph.empty.add_edge "satd_1" "satd_2" ⟨["call"], 8/10⟩

/-- The input/output pair produced by scoring `archCriticalDebt` over
`c1Graph` with no chains: severity 10, one descendant, no ancestor, zero
chain factor, score `0.4·10 + 0.3·1 = 4.3`. -/
def c1Pair : TechnicalDebt × TechnicalDebt :=
  (archCriticalDebt,
   { archCriticalDebt with
       sir_score := 43/10,
       sir_components := ⟨10, 1, 0, 0⟩ })

/-- Instantiation of `sir_score_formula` at a concrete scored instance. -/
theorem sir_score_formula_witness :
    c1Pair ∈ [archCriticalDebt].zip
        (SirCalculator.calculate_sir_scores defaultSirWeights [archCriticalDebt] [] [] c1Graph)
    ∧ c1Pair.2.sir_score =
        (4/10) * c1Pair.2.sir_components.severity
          + (3/10) * c1Pair.2.sir_components.outDependencies
          - (1/10) * c1Pair.2.sir_components.inDependencies
          + (4/10) * c1Pair.2.sir_components.chainLengthFactor :=
  ⟨by with_unfolding_all decide,
   ((sir_score_formula [archCriticalDebt] [] [] c1Graph).1 c1Pair
      (by with_unfolding_all decide)).1⟩

/-- C10. `SirCalculator.calculate_sir_scores` returns the received list
updated in place: the result has one entry per input entry, in order, and
each output record differs from its input record in at most the `sir_score`
and `sir_components` attributes — `id`, `file`, `line`, `content`,
`debt_type` (and the remaining attributes) are unchanged. -/
theorem sir_scores_frame (w : SirWeights) (debt_items : List TechnicalDebt)
    (relationships : List SatdRelationship) (chains : List (List String))
    (graph : DiGraph) :
    (SirCalculator.calculate_sir_scores w debt_items relationships chains graph).length
      = debt_items.length
    ∧ ∀ p ∈ debt_items.zip
        (SirCalculator.calculate_sir_scores w debt_items relationships chains graph),
        p.2 = { p.1 with sir_score := p.2.sir_score, sir_components := p.2.sir_components }
        ∧ p.2.id = p.1.id ∧ p.2.file = p.1.file ∧ p.2.line = p.1.line
        ∧ p.2.content = p.1.content ∧ p.2.debt_type = p.1.debt_type
        ∧ p.2.description = p.1.description
        ∧ p.2.created_commit = p.1.created_commit
        ∧ p.2.created_date = p.1.created_date := by
  constructor
  · simp [SirCalculator.calculate_sir_scores]
  · intro p hp
    have h2 := mem_zip_map _ debt_items p hp
    rw [h2]
    exact ⟨rfl, rfl, rfl, rfl, rfl, rfl, rfl, rfl, rfl⟩

/-- Instantiation of `sir_scores_frame` at a concrete scored instance. -/
theorem sir_scores_frame_witness :
    c1Pair ∈ [archCriticalDebt].zip
        (SirCalculator.calculate_sir_scores defaultSirWeights [archCriticalDebt] [] [] c1Graph)
    ∧ c1Pair.2.id = c1Pair.1.id ∧ c1Pair.2.file = c1Pair.1.file
    ∧ c1Pair.2.line = c1Pair.1.line ∧ c1Pair.2.content = c1Pair.1.content
    ∧ c1Pair.2.debt_type = c1Pair.1.debt_type :=
  ⟨by with_unfolding_all decide,
   by
    have h := (sir_scores_frame defaultSirWeights [archCriticalDebt] [] [] c1Graph).2 c1Pair
      (by with_unfolding_all decide)
    exact ⟨h.2.1, h.2.2.1, h.2.2.2.1, h.2.2.2.2.1, h.2.2.2.2.2.1⟩⟩

lemma edgeData_empty (u v : String) : DiGraph.empty.edgeData u v = none := rfl

lemma lookupLast_ne_none (u v : String) :
    ∀ (rels : List SatdRelationship),
      (lookupLast rels u v ≠ none ↔ ∃ r ∈ rels, r.source_id = u ∧ r.target_id = v) := by
  intro rels
  induction rels with
  | nil => simp [lookupLast]
  | cons r rels ih =>
    rw [lookupLast, Ne, Option.or_eq_none]
    rw [not_and_or, ← Ne, ih]
    constructor
    · rintro (⟨x, hx, hxk⟩ | hr)
      · exact ⟨x, List.mem_cons_of_mem _ hx, hxk⟩
      · by_cases hc : r.source_id = u ∧ r.target_id = v
        · exact ⟨r, List.mem_cons_self _ _, hc⟩
        · rw [if_neg hc] at hr
          exact absurd rfl hr
    · rintro ⟨x, hx, hxk⟩
      rcases List.mem_cons.1 hx with rfl | hx2
      · refine Or.inr ?_
        rw [if_pos hxk]
        exact Option.some_ne_none _
      · exact Or.inl ⟨x, hx2, hxk⟩

/-- Scenario D of the specification as raw candidate edges:
`(A,B,call)` then `(A,B,module)` (call relationships are analyzed before
module relationships in `find_all_relationships`). -/
def scenarioD : List SatdRelationship :=
  [mkRawRelationship "A" "B" "call", mkRawRelationship "A" "B" "module"]

/-- C2 counterexample. On Scenario D raw edges `(A,B,call)` and
`(A,B,module)`, the single stored graph edge carries `types = ["module"]` and
weight 0.9: the `call` type is absent, so the merged edge's types set is NOT
the union `{call, module}` that the claim asserts. -/
theorem merge_counterexample :
    (RelationshipAnalyzer.find_all_relationships scenarioD).2.edgeData "A" "B"
      = some ⟨["module"], 9/10⟩
    ∧ "call" ∉ (((RelationshipAnalyzer.find_all_relationships scenarioD).2.edgeData
        "A" "B").getD ⟨[], 0⟩).types := by
  with_unfolding_all decide

/-- C2 amended. Raw edges are never merged in the returned relationship list
(it is the concatenation of the analyzer outputs, unchanged); the graph keeps
at most one edge per ordered pair, whose attribute data (`types` singleton
and `strength`) is that of the LAST raw edge inserted for that pair — not a
union of types with maximal strength. On Scenario D the last edge is the
module edge, so the stored weight is 0.9 with types `["module"]`. -/
theorem merge_last_write_wins (rels : List SatdRelationship) (u v : String) :
    (RelationshipAnalyzer.find_all_relationships rels).1 = rels
    ∧ (RelationshipAnalyzer.find_all_relationships rels).2.edgeData u v
        = lookupLast rels u v
    ∧ KeysDistinct (RelationshipAnalyzer.find_all_relationships rels).2
    ∧ ((RelationshipAnalyzer.find_all_relationships scenarioD).2.edgeData "A" "B").map
        EdgeData.strength = some (9/10) := by
  refine ⟨rfl, ?_, keysDistinct_buildGraph rels _ keysDistinct_empty, ?_⟩
  · show (buildGraph DiGraph.empty rels).edgeData u v = _
    rw [edgeData_buildGraph u v rels DiGraph.empty, edgeData_empty, Option.or_none]
  · with_unfolding_all decide

/-- A raw self-loop edge (its endpoints name the same registered instance). -/
def c4SelfLoop : List SatdRelationship := [⟨"A", "A", ["call"], 8/10⟩]

/-- A raw edge whose target id names no registered instance. -/
def c4Unknown : List SatdRelationship := [⟨"A", "Z", ["call"], 8/10⟩]

/-- C4 counterexample. No raw edge is dropped: a self-loop triple `(A,A,call)`
is stored as a self-loop edge of the merged graph, and an edge to an unknown
id `Z` registers `Z` as a graph node — contradicting the claim that such
triples are rejected. -/
theorem selfloop_not_dropped :
    (RelationshipAnalyzer.find_all_relationships c4SelfLoop).1 = c4SelfLoop
    ∧ (RelationshipAnalyzer.find_all_relationships c4SelfLoop).2.edgeData "A" "A"
        = some ⟨["call"], 8/10⟩
    ∧ "Z" ∈ (RelationshipAnalyzer.find_all_relationships c4Unknown).2.nodes := by
  with_unfolding_all decide

/-- C4 amended. `find_all_relationships` performs no validation at all: every
raw edge — self-loops and edges with unregistered endpoints included — is kept
in the returned list and inserted into the graph; the graph has an edge for an
ordered pair exactly when some raw edge has that pair, and its node set is
exactly the endpoints of the raw edges. -/
theorem graph_keeps_all_edges (rels : List SatdRelationship) (u v : String) :
    ((RelationshipAnalyzer.find_all_relationships rels).2.edgeData u v ≠ none
      ↔ ∃ r ∈ rels, r.source_id = u ∧ r.target_id = v)
    ∧ (u ∈ (RelationshipAnalyzer.find_all_relationships rels).2.nodes
      ↔ ∃ r ∈ rels, u = r.source_id ∨ u = r.target_id)
    ∧ (RelationshipAnalyzer.find_all_relationships rels).1 = rels := by
  refine ⟨?_, ?_, rfl⟩
  · show (buildGraph DiGraph.empty rels).edgeData u v ≠ none ↔ _
    rw [edgeData_buildGraph u v rels DiGraph.empty, edgeData_empty, Option.or_none]
    exact lookupLast_ne_none u v rels
  · show u ∈ (buildGraph DiGraph.empty rels).nodes ↔ _
    rw [mem_buildGraph_nodes u rels DiGraph.empty]
    simp [DiGraph.empty]

/-- Instantiation of `graph_keeps_all_edges`: the self-loop edge is present. -/
theorem graph_keeps_all_edges_witness :
    (RelationshipAnalyzer.find_all_relationships c4SelfLoop).2.edgeData "A" "A" ≠ none :=
  (graph_keeps_all_edges c4SelfLoop "A" "A").1.mpr
    ⟨⟨"A", "A", ["call"], 8/10⟩, by with_unfolding_all decide, rfl, rfl⟩

/-- C3 amended. The chain constructor's candidate chains are exactly the
simple paths between ordered pairs of distinct graph nodes with at least 2
nodes and at most 20 edges (at most 21 nodes): the cutoff is the hard-coded
`cutoff=20` of the `nx.all_simple_paths` call, not a configurable `max_hops`
defaulting to 5. -/
theorem candidate_chains_characterization (g : DiGraph) (p : List String) :
    p ∈ candidateChains g ↔
      ∃ s t : String, s ∈ g.nodes ∧ t ∈ g.nodes ∧ s ≠ t ∧
        p.head? = some s ∧ p.getLast? = some t ∧
        List.Chain' (fun a b => g.hasEdge a b = true) p ∧
        p.Nodup ∧ 2 ≤ p.length ∧ p.length ≤ 21 :=
  mem_candidateChains

/-- A TechnicalDebt record with the given id and file and inert remaining
fields, for concrete instantiations. -/
def mkDebt (i : String) (f : String) : TechnicalDebt :=
  ⟨i, f, 1, "TODO", "TODO", "Design", "", "", 0, ⟨0, 0, 0, 0⟩⟩

/-- Seven registered instances forming a directed path `a → b → ... → g`. -/
def c3Debts : List TechnicalDebt :=
  [mkDebt "a" "m1/f1.py", mkDebt "b" "m1/f2.py", mkDebt "c" "m2/f3.py",
   mkDebt "d" "m2/f4.py", mkDebt "e" "m3/f5.py", mkDebt "f" "m3/f6.py",
   mkDebt "g" "m4/f7.py"]

/-- The six call edges of the path `a → b → ... → g`. -/
def c3Rels : List SatdRelationship :=
  [mkRawRelationship "a" "b" "call", mkRawRelationship "b" "c" "call",
   mkRawRelationship "c" "d" "call", mkRawRelationship "d" "e" "call",
   mkRawRelationship "e" "f" "call", mkRawRelationship "f" "g" "call"]

/-- C3 counterexample. Under the default configuration the chain constructor
returns the full 7-node path `a..g`, a chain with 6 edges — more than the 5
edges the claimed `max_hops=5` default would allow. -/
theorem cutoff_counterexample :
    ["a", "b", "c", "d", "e", "f", "g"] ∈ ChainAnalyzer.find_chains c3Rels c3Debts
    ∧ (ChainAnalyzer.find_chains c3Rels c3Debts).any
        (fun c => decide (5 < c.length - 1)) = true := by
  with_unfolding_all decide

/-- Instantiation of `candidate_chains_characterization`: the 2-node path
`[a, b]` is a candidate chain of the path graph. -/
theorem candidate_chains_characterization_witness :
    ["a", "b"] ∈ candidateChains (chainsGraph c3Rels c3Debts) :=
  (candidate_chains_characterization (chainsGraph c3Rels c3Debts) ["a", "b"]).mpr
    ⟨"a", "b", by with_unfolding_all decide, by with_unfolding_all decide,
     by decide, rfl, rfl,
     List.chain'_cons.2 ⟨by with_unfolding_all decide, List.chain'_singleton "b"⟩,
     by decide, by decide, by decide⟩

/-- C5. Every chain returned by `find_chains` has at least 2 nodes, repeats no
node, and steps only along edges of the merged graph; and no two returned
chains have identical node sequences. -/
theorem chain_validity (relationships : List SatdRelationship)
    (debt_items : List TechnicalDebt) :
    (∀ c ∈ ChainAnalyzer.find_chains relationships debt_items,
      2 ≤ c.length ∧ c.Nodup ∧
      List.Chain' (fun a b => (chainsGraph relationships debt_items).hasEdge a b = true) c)
    ∧ (ChainAnalyzer.find_chains relationships debt_items).Pairwise
        (fun a b => a ≠ b) := by
  constructor
  · intro c hc
    obtain ⟨s, t, -, -, -, -, -, hchain, hnd, hlen2, -⟩ :=
      mem_candidateChains.1 (find_chains_mem_candidates hc)
    exact ⟨hlen2, hnd, hchain⟩
  · have hded := (dedupChains_spec
      (candidateChains (chainsGraph relationships debt_items)) []).1
    have hperm : List.Perm (ChainAnalyzer.find_chains relationships debt_items)
        (dedupChains (candidateChains (chainsGraph relationships debt_items)) []) :=
      List.mergeSort_perm _ _
    have hpw := (List.Perm.pairwise_iff (fun h => Ne.symm h) hperm).2 hded
    exact hpw.imp (fun h he => h (by rw [he]))

/-- Instantiation of `chain_validity` at a concrete returned chain. -/
theorem chain_validity_witness :
    ["a", "b"] ∈ ChainAnalyzer.find_chains c3Rels c3Debts
    ∧ (2 ≤ (["a", "b"] : List String).length ∧ (["a", "b"] : List String).Nodup ∧
        List.Chain' (fun a b => (chainsGraph c3Rels c3Debts).hasEdge a b = true)
          ["a", "b"]) :=
  ⟨by with_unfolding_all decide,
   (chain_validity c3Rels c3Debts).1 ["a", "b"] (by with_unfolding_all decide)⟩

/-- Three registered instances in node-insertion order `b, a, c`. -/
def c7Debts : List TechnicalDebt :=
  [mkDebt "b" "m1/f1.py", mkDebt "a" "m1/f2.py", mkDebt "c" "m2/f3.py"]

/-- Edges `b → a` and `a → c`. -/
def c7Rels : List SatdRelationship :=
  [mkRawRelationship "b" "a" "call", mkRawRelationship "a" "c" "call"]

/-- String-lexicographic comparison of node sequences (the final tie-break of
claim C7). -/
def seqLexLE : List String → List String → Bool
  | [], _ => true
  | _ :: _, [] => false
  | a :: as, b :: bs => if a = b then seqLexLE as bs else decide (a < b)

/-- The ordering claim C7 asserts: length descending, ties by the chain's
first node id ascending, further ties lexicographically by node sequence. -/
def claimKeyLE (x y : List String) : Bool :=
  if x.length ≠ y.length then decide (y.length < x.length)
  else if x.head?.getD "" ≠ y.head?.getD "" then decide (x.head?.getD "" < y.head?.getD "")
  else seqLexLE x y

/-- Adjacent-pairs check that a list is ordered by `claimKeyLE`. -/
def claimSortedB : List (List String) → Bool
  | [] => true
  | [_] => true
  | x :: y :: rest => claimKeyLE x y && claimSortedB (y :: rest)

/-- C7 counterexample. On the graph `b → a → c` the returned chain list is
`[[b,a,c], [b,a], [a,c]]`: the two length-2 chains keep their discovery order
`[b,a]` before `[a,c]`, violating the claimed tie-break by first node id
(which would put `[a,c]` first). -/
theorem sort_tiebreak_counterexample :
    ChainAnalyzer.find_chains c7Rels c7Debts = [["b", "a", "c"], ["b", "a"], ["a", "c"]]
    ∧ claimSortedB (ChainAnalyzer.find_chains c7Rels c7Debts) = false := by
  with_unfolding_all decide

lemma lenDescB_trans (a b c : List String) (hab : lenDescB a b = true)
    (hbc : lenDescB b c = true) : lenDescB a c = true := by
  simp only [lenDescB, decide_eq_true_eq] at hab hbc ⊢
  omega

lemma lenDescB_total (a b : List String) : lenDescB a b || lenDescB b a := by
  simp only [lenDescB, Bool.or_eq_true, decide_eq_true_eq]
  omega

/-- C7 amended. The returned chain list is the deduplicated candidate list
stably sorted by length descending ONLY: it is a permutation of the
deduplicated candidates, pairwise non-increasing in length, and any two
chains whose relative order already agrees with length-descending (in
particular any two chains of equal length) keep their deduplication order —
there is no tie-break by first node id or by node sequence. -/
theorem sort_by_length_stable (relationships : List SatdRelationship)
    (debt_items : List TechnicalDebt) :
    List.Perm (ChainAnalyzer.find_chains relationships debt_items)
      (dedupChains (candidateChains (chainsGraph relationships debt_items)) [])
    ∧ (ChainAnalyzer.find_chains relationships debt_items).Pairwise
        (fun x y => y.length ≤ x.length)
    ∧ (∀ x y : List String, y.length ≤ x.length →
        List.Sublist [x, y]
          (dedupChains (candidateChains (chainsGraph relationships debt_items)) []) →
        List.Sublist [x, y] (ChainAnalyzer.find_chains relationships debt_items)) := by
  refine ⟨List.mergeSort_perm _ _, ?_, ?_⟩
  · have hsorted := List.sorted_mergeSort lenDescB_trans lenDescB_total
      (dedupChains (candidateChains (chainsGraph relationships debt_items)) [])
    exact hsorted.imp (fun h => by
      simpa only [lenDescB, decide_eq_true_eq] using h)
  · intro x y hxy hsub
    exact List.sublist_mergeSort lenDescB_trans lenDescB_total
      (List.pairwise_pair.mpr (by
        simp only [lenDescB, decide_eq_true_eq]
        exact hxy)) hsub

/-- Instantiation of `sort_by_length_stable`: the equal-length chains `[b,a]`
and `[a,c]` keep their deduplication order in the sorted output. -/
theorem sort_by_length_stable_witness :
    ((["a", "c"] : List String).length ≤ (["b", "a"] : List String).length
      ∧ List.Sublist [["b", "a"], ["a", "c"]]
          (dedupChains (candidateChains (chainsGraph c7Rels c7Debts)) []))
    ∧ List.Sublist [["b", "a"], ["a", "c"]] (ChainAnalyzer.find_chains c7Rels c7Debts) :=
  ⟨⟨by decide, by with_unfolding_all decide⟩,
   (sort_by_length_stable c7Rels c7Debts).2.2 ["b", "a"] ["a", "c"] (by decide)
     (by with_unfolding_all decide)⟩

lemma mem_addDebtNodes_nodes (w : String) :
    ∀ (debts : List TechnicalDebt) (g0 : DiGraph),
      (w ∈ (addDebtNodes g0 debts).nodes ↔
        w ∈ g0.nodes ∨ w ∈ debts.map TechnicalDebt.id) := by
  intro debts
  induction debts with
  | nil =>
    intro g0
    rw [addDebtNodes]
    simp
  | cons debt debts ih =>
    intro g0
    rw [addDebtNodes, ih, mem_addNode_nodes]
    simp only [List.map_cons, List.mem_cons]
    tauto

/-- Under endpoint-registered raw edges, every node of the chains graph is a
registered debt id. -/
lemma chainsGraph_nodes_subset {rels : List SatdRelationship}
    {debts : List TechnicalDebt}
    (hend : ∀ r ∈ rels, r.source_id ∈ debts.map TechnicalDebt.id
      ∧ r.target_id ∈ debts.map TechnicalDebt.id) :
    ∀ w ∈ (chainsGraph rels debts).nodes, w ∈ debts.map TechnicalDebt.id := by
  intro w hw
  rw [chainsGraph, mem_buildGraph_nodes, mem_addDebtNodes_nodes] at hw
  rcases hw with (h | h) | ⟨r, hr, hw⟩
  · exact absurd h (List.not_mem_nil w)
  · exact h
  · rcases hw with rfl | rfl
    · exact (hend r hr).1
    · exact (hend r hr).2

/-- Every node appearing on a returned chain is a node of the chains graph. -/
lemma find_chains_nodes_mem {rels : List SatdRelationship}
    {debts : List TechnicalDebt} {c : List String} {x : String}
    (hc : c ∈ ChainAnalyzer.find_chains rels debts) (hx : x ∈ c) :
    x ∈ (chainsGraph rels debts).nodes := by
  obtain ⟨s, t, hs, -, -, hhead, -, hchain, -, -, -⟩ :=
    mem_candidateChains.1 (find_chains_mem_candidates hc)
  rcases c with _ | ⟨y, q⟩
  · cases hx
  · have hy : y = s := by simpa using hhead
    subst hy
    exact chain_nodes_mem (endpointsRegistered_chainsGraph rels debts) q y hs hchain x hx

lemma find_chains_length_ge_two {rels : List SatdRelationship}
    {debts : List TechnicalDebt} {c : List String}
    (hc : c ∈ ChainAnalyzer.find_chains rels debts) : 2 ≤ c.length := by
  obtain ⟨-, -, -, -, -, -, -, -, -, h, -⟩ :=
    mem_candidateChains.1 (find_chains_mem_candidates hc)
  exact h

/-- C8. With every raw edge referencing registered instance ids (which is how
the pipeline's dependency analyzers construct them), the computed
`participation_rate` and `cross_module_rate` lie in `[0, 1]`, and every scored
instance's `chain_length_factor` lies in `[0, 1]`, equals exactly 1 for every
member of a globally longest chain, and equals 0 for every instance in no
chain. -/
theorem metrics_bounds (relationships : List SatdRelationship)
    (debt_items : List TechnicalDebt)
    (hend : ∀ r ∈ relationships,
      r.source_id ∈ debt_items.map TechnicalDebt.id
      ∧ r.target_id ∈ debt_items.map TechnicalDebt.id) :
    (0 ≤ (ChainAnalyzer.calculate_chain_metrics
        (ChainAnalyzer.find_chains relationships debt_items) debt_items).participation_rate
      ∧ (ChainAnalyzer.calculate_chain_metrics
        (ChainAnalyzer.find_chains relationships debt_items) debt_items).participation_rate ≤ 1)
    ∧ (0 ≤ (ChainAnalyzer.calculate_chain_metrics
        (ChainAnalyzer.find_chains relationships debt_items) debt_items).cross_module_chains
      ∧ (ChainAnalyzer.calculate_chain_metrics
        (ChainAnalyzer.find_chains relationships debt_items) debt_items).cross_module_chains ≤ 1)
    ∧ (∀ p ∈ debt_items.zip
        (SirCalculator.calculate_sir_scores defaultSirWeights debt_items relationships
          (ChainAnalyzer.find_chains relationships debt_items)
          (buildGraph DiGraph.empty relationships)),
        (0 ≤ p.2.sir_components.chainLengthFactor
          ∧ p.2.sir_components.chainLengthFactor ≤ 1)
        ∧ ((∃ c ∈ ChainAnalyzer.find_chains relationships debt_items,
              p.1.id ∈ c ∧ ∀ c2 ∈ ChainAnalyzer.find_chains relationships debt_items,
                c2.length ≤ c.length) →
            p.2.sir_components.chainLengthFactor = 1)
        ∧ ((∀ c ∈ ChainAnalyzer.find_chains relationships debt_items, p.1.id ∉ c) →
            p.2.sir_components.chainLengthFactor = 0)) := by
  set chains := ChainAnalyzer.find_chains relationships debt_items with hchains
  constructor
  · -- participation rate bounds
    unfold ChainAnalyzer.calculate_chain_metrics
    by_cases hc : chains = []
    · rw [if_pos hc]
      norm_num
    · rw [if_neg hc]
      simp only
      by_cases hd : debt_items = []
      · rw [if_pos hd]
        norm_num
      · rw [if_neg hd]
        constructor
        · positivity
        · rw [div_le_one (by
            have : 0 < debt_items.length := List.length_pos.2 hd
            exact_mod_cast this)]
          have hsub : ((chains.flatMap id).dedup) ⊆ debt_items.map TechnicalDebt.id := by
            intro x hx
            rw [List.mem_dedup, List.mem_flatMap] at hx
            obtain ⟨c, hcm, hxc⟩ := hx
            exact chainsGraph_nodes_subset hend x (find_chains_nodes_mem hcm hxc)
          have hlen := ((List.nodup_dedup (chains.flatMap id)).subperm hsub).length_le
          rw [List.length_map] at hlen
          exact_mod_cast hlen
  constructor
  · -- cross-module rate bounds
    unfold ChainAnalyzer.calculate_chain_metrics
    by_cases hc : chains = []
    · rw [if_pos hc]
      norm_num
    · rw [if_neg hc]
      simp only
      constructor
      · positivity
      · rw [div_le_one (by
          have : 0 < chains.length := List.length_pos.2 hc
          exact_mod_cast this)]
        exact_mod_cast List.countP_le_length _
  · -- chain length factor
    intro p hp
    have h2 := mem_zip_map _ debt_items p hp
    have hclf : p.2.sir_components.chainLengthFactor =
        SirCalculator.calculate_chain_length_factor
          (chains.filter (fun c => c.contains p.1.id))
          (if chains = [] then 1 else (chains.map List.length).foldr max 0) := by
      rw [h2]
    rw [hclf]
    set filtered := chains.filter (fun c => c.contains p.1.id) with hfil
    set mcl := if chains = [] then 1 else (chains.map List.length).foldr max 0 with hmcl
    have hfil_sub : ∀ c ∈ filtered, c ∈ chains := fun c hcm => (List.mem_filter.1 hcm).1
    have hub : ∀ c ∈ filtered, c.length ≤ mcl := by
      intro c hcm
      have hcc := hfil_sub c hcm
      have hne : ¬ chains = [] := by
        intro hnil
        rw [hnil] at hcc
        exact absurd hcc (List.not_mem_nil c)
      rw [hmcl, if_neg hne]
      exact le_foldr_max (List.mem_map.2 ⟨c, hcc, rfl⟩)
    refine ⟨?_, ?_, ?_⟩
    · -- bounds
      unfold SirCalculator.calculate_chain_length_factor
      by_cases hz : filtered = [] ∨ mcl ≤ 1
      · rw [if_pos hz]
        norm_num
      · rw [if_neg hz]
        simp only
        push_neg at hz
        have hmpos : 0 < mcl := by omega
        constructor
        · positivity
        · rw [div_le_one (by exact_mod_cast hmpos)]
          have : (filtered.map List.length).foldr max 0 ≤ mcl := by
            refine foldr_max_le ?_
            intro a ha
            rcases List.mem_map.1 ha with ⟨c, hcm, rfl⟩
            exact hub c hcm
          exact_mod_cast this
    · -- member of a globally longest chain
      rintro ⟨c, hcm, hxc, hmax⟩
      have hne : ¬ chains = [] := by
        intro hnil
        rw [hnil] at hcm
        exact absurd hcm (List.not_mem_nil c)
      have hcfil : c ∈ filtered := by
        rw [hfil, List.mem_filter]
        refine ⟨hcm, ?_⟩
        simpa [List.contains, List.elem_iff] using hxc
      have hclen : c.length = mcl := by
        refine le_antisymm (hub c hcfil) ?_
        rw [hmcl, if_neg hne]
        refine foldr_max_le ?_
        intro a ha
        rcases List.mem_map.1 ha with ⟨c2, hc2, rfl⟩
        exact hmax c2 hc2
      have hmcl2 : 2 ≤ mcl := hclen ▸ find_chains_length_ge_two hcm
      have hfne : ¬ (filtered = [] ∨ mcl ≤ 1) := by
        push_neg
        refine ⟨?_, by omega⟩
        intro hnil
        rw [hnil] at hcfil
        exact absurd hcfil (List.not_mem_nil c)
      unfold SirCalculator.calculate_chain_length_factor
      rw [if_neg hfne]
      simp only
      have hnum : (filtered.map List.length).foldr max 0 = mcl := by
        refine le_antisymm (foldr_max_le ?_) ?_
        · intro a ha
          rcases List.mem_map.1 ha with ⟨c2, hc2, rfl⟩
          exact hub c2 hc2
        · rw [← hclen]
          exact le_foldr_max (List.mem_map.2 ⟨c, hcfil, rfl⟩)
      rw [hnum]
      exact div_self (by
        have : 0 < mcl := by omega
        exact_mod_cast Nat.pos_iff_ne_zero.1 this)
    · -- in no chain
      intro hnone
      have hfe : filtered = [] := by
        rw [hfil, List.filter_eq_nil_iff]
        intro c hcm hcont
        refine hnone c hcm ?_
        simpa [List.contains, List.elem_iff] using hcont
      unfold SirCalculator.calculate_chain_length_factor
      rw [if_pos (Or.inl hfe)]

/-- Instantiation of `metrics_bounds` on the 7-node path corpus: its raw
edges reference only registered ids, and the participation rate is within
bounds. -/
theorem metrics_bounds_witness :
    (∀ r ∈ c3Rels, r.source_id ∈ c3Debts.map TechnicalDebt.id
      ∧ r.target_id ∈ c3Debts.map TechnicalDebt.id)
    ∧ (0 ≤ (ChainAnalyzer.calculate_chain_metrics
        (ChainAnalyzer.find_chains c3Rels c3Debts) c3Debts).participation_rate
      ∧ (ChainAnalyzer.calculate_chain_metrics
        (ChainAnalyzer.find_chains c3Rels c3Debts) c3Debts).participation_rate ≤ 1) :=
  ⟨by with_unfolding_all decide,
   (metrics_bounds c3Rels c3Debts (by with_unfolding_all decide)).1⟩

end RapidPay
